import Mathlib

/-!
# Verification of the uTensor IR graph module (`utensor_cgen/ir/base.py`)

A shallow embedding of the IR data model of `utensor_cgen`: tensor
descriptors (`TensorInfo`), operation nodes (`OperationInfo`) and the
computation graph (`uTensorGraph`), together with the graph mutation API
(`add_op`, `drop_op`, node self-registration, `get_ops_by_type`,
`__deepcopy__`).

Python dictionaries are embedded as insertion-ordered association lists
(`dictUpdate` keeps the position of a replaced key, as CPython dicts do);
Python `list.remove` is `List.erase`; a raised exception is an
`Except.error` result paired with the state as mutated so far, so that
partial mutation before a raise is observable.
-/

/-- The error kinds raised by the module (each a `ValueError` or
`RuntimeError` in the source, distinguished here by message). -/
inductive UErr where
  /-- `ValueError('No output_nodes given')` in `uTensorGraph.__attrs_post_init__`. -/
  | emptyOutputSet
  /-- `ValueError('duplicate op detected, ...')` in `uTensorGraph.add_op`. -/
  | duplicateOp
  /-- `ValueError('op not found in the graph: ...')` in `uTensorGraph.drop_op`. -/
  | opNotFound
  /-- `ValueError` raised by Python `list.remove` inside `drop_op` when the
  name is absent from `topo_order`. -/
  | removeMissing
  /-- `ValueError("dangling tensor: ...")` in `TensorInfo.n_th_output`. -/
  | danglingTensor
  /-- `ValueError` raised by Python `list.index` inside `n_th_output` when the
  tensor name is not among the producer's output tensor names. -/
  | indexMissing
  /-- `RuntimeError('shallow copy is not allowed ...')` in
  `_NoShallowCopyMixin.__copy__`. -/
  | shallowCopyNotAllowed
  deriving DecidableEq, Repr

/-- `TensorInfo`: one named data edge.  `op_name` is the name-keyed
back-reference to the producing op (never an object reference); `dtype` is
kept as an opaque tag and `shape` as an optional list of optional dims,
mirroring the validated attrs fields. -/
structure TensorInfo where
  name : String
  op_name : String
  dtype : String
  shape : Option (List (Option Int))
  deriving DecidableEq, Repr

/-- `OperationInfo`: one computation vertex.  The `_ugraph` back-pointer of
the Python object is not stored: every method that used it takes the owning
graph explicitly.  `op_attr` and its converter normalisation live in the
converter module, outside the claims, and are not modelled. -/
structure OperationInfo where
  name : String
  backend : String
  input_tensors : List TensorInfo
  output_tensors : List TensorInfo
  op_type : String
  deriving DecidableEq, Repr

/-- Insertion-ordered association list standing for the Python dict
`uTensorGraph.ops_info`. -/
abbrev OpsDict := List (String × OperationInfo)

/-- Association list standing for the Python dict
`uTensorGraph._type_to_op_map`. -/
abbrev TypeMap := List (String × List OperationInfo)

/-- The keys of an embedded dict, in insertion order
(Python `dict.keys()`). -/
def dictKeys {α : Type} (d : List (String × α)) : List String :=
  d.map Prod.fst

/-- Python `d[k] = v`: replace in place when the key exists (CPython keeps
the original position), append otherwise. -/
def dictUpdate {α : Type} (d : List (String × α)) (k : String) (v : α) :
    List (String × α) :=
  if k ∈ dictKeys d then
    d.map (fun p => if p.1 = k then (k, v) else p)
  else
    d ++ [(k, v)]

/-- Python `del d[k]` (also used for the dict left after removal). -/
def dictDel {α : Type} (d : List (String × α)) (k : String) :
    List (String × α) :=
  d.filter (fun p => p.1 ≠ k)

/-- `uTensorGraph`: the aggregate.  `ops_info` is the node table,
`topo_order` the cached topological order, `_type_to_op_map` the lazily
built type index.  `output_nodes` is the declared-outputs list. -/
structure UTensorGraph where
  output_nodes : List String
  backend : String
  ops_info : OpsDict
  topo_order : List String
  type_to_op_map : TypeMap
  deriving DecidableEq, Repr

namespace UTensorGraph

/-- `uTensorGraph.__init__` + `__attrs_post_init__`: fails when the
declared-outputs list is falsy (empty); `topo_order` and
`_type_to_op_map` start as fresh empty containers (attrs `init=False`
factories). -/
def construct (output_nodes : List String) (backend : String)
    (ops_info : OpsDict) : Except UErr UTensorGraph :=
  if output_nodes.isEmpty then
    .error .emptyOutputSet
  else
    .ok { output_nodes := output_nodes, backend := backend,
          ops_info := ops_info, topo_order := [], type_to_op_map := [] }

end UTensorGraph

namespace OperationInfo

/-- The producer names of a node's input tensors, deduplicated keeping the
first occurrence — the `in_ops` loop of `OperationInfo.input_nodes`. -/
def in_ops (op : OperationInfo) : List String :=
  op.input_tensors.foldl
    (fun acc t => if t.op_name ∈ acc then acc else acc ++ [t.op_name]) []

/-- `OperationInfo.input_nodes`: look each deduplicated producer name up in
the owning graph's node table, keeping `none` (Python `None`) for an
unresolved name. -/
def input_nodes (op : OperationInfo) (g : UTensorGraph) :
    List (Option OperationInfo) :=
  op.in_ops.map (fun n => g.ops_info.lookup n)

/-- `OperationInfo.is_dangling`: `None in self.input_nodes`. -/
def is_dangling (op : OperationInfo) (g : UTensorGraph) : Bool :=
  (op.input_nodes g).any (fun x => x.isNone)

/-- `OperationInfo.__attrs_post_init__`, registration side effect (the attrs
validators are type-level here): `self._ugraph.ops_info[self.name] = self`.
There is no name-collision check; an existing entry is overwritten in
place.  Returns the constructed node and the mutated graph. -/
def construct (g : UTensorGraph) (name backend : String)
    (input_tensors output_tensors : List TensorInfo) (op_type : String) :
    OperationInfo × UTensorGraph :=
  ({ name := name, backend := backend, input_tensors := input_tensors,
     output_tensors := output_tensors, op_type := op_type },
   { g with ops_info := (dictUpdate g.ops_info name
      { name := name, backend := backend, input_tensors := input_tensors,
        output_tensors := output_tensors, op_type := op_type }) })

end OperationInfo

namespace TensorInfo

/-- `TensorInfo.op`: `self._ugraph.ops_info.get(self.op_name, None)`. -/
def op (t : TensorInfo) (g : UTensorGraph) : Option OperationInfo :=
  g.ops_info.lookup t.op_name

/-- `TensorInfo.is_dangling`: `True` when the producing op is absent,
otherwise the producing op's own `is_dangling`. -/
def is_dangling (t : TensorInfo) (g : UTensorGraph) : Bool :=
  match t.op g with
  | none => true
  | some o => o.is_dangling g

/-- `TensorInfo.n_th_output`: raises on a dangling tensor, else the index
of this tensor's name among its producer's output tensor names (Python
`list.index`, which raises when absent). -/
def n_th_output (t : TensorInfo) (g : UTensorGraph) : Except UErr Nat :=
  if t.is_dangling g then
    .error .danglingTensor
  else
    match t.op g with
    | none => .error .danglingTensor
    | some o =>
      let out_tnames := o.output_tensors.map (fun ti => ti.name)
      if t.name ∈ out_tnames then
        .ok (out_tnames.indexOf t.name)
      else
        .error .indexMissing

end TensorInfo

/-! ## Topological ordering

`topologic_order_graph` lives in `utensor_cgen/utils`, outside the
inspected sources; it is modelled from the spec. -/

/-- The producer names of a node's input tensors that resolve in the node
table `d` (the dependencies that constrain the order). -/
def resolvableProducers (d : OpsDict) (op : OperationInfo) : List String :=
  (op.input_tensors.map (fun t => t.op_name)).filter
    (fun p => (d.lookup p).isSome)

/-- A node is ready when every resolvable producer of its inputs is
already placed. -/
def readyB (d : OpsDict) (placed : List String) (op : OperationInfo) : Bool :=
  (resolvableProducers d op).all (fun p => placed.contains p)

/-- One sweep of the ordering loop: the not-yet-placed nodes that are ready
with respect to the nodes placed so far, in node-table (insertion) order. -/
def kahnRound (d : OpsDict) (placed : List String) : List String :=
  dictKeys (d.filter (fun kv => !placed.contains kv.1 && readyB d placed kv.2))

/-- Fuelled selection loop: repeatedly append every currently ready
unplaced node, stopping when a sweep finds none. -/
def kahnAux (d : OpsDict) : Nat → List String → List String
  | 0, placed => placed
  | fuel + 1, placed =>
    if (kahnRound d placed).isEmpty then placed
    else kahnAux d fuel (placed ++ kahnRound d placed)

/-- Modelled from the spec: `topologic_order_graph` (in
`utensor_cgen/utils`, not among the inspected sources) recomputes the
topological order over the full node set by "repeated selection of nodes
whose inputs are already ordered", with a deterministic insertion-order
tie-break. -/
def topologic_order_graph (d : OpsDict) : List String :=
  kahnAux d d.length []

namespace UTensorGraph

/-- `uTensorGraph.get_ops_by_type`: on first call (empty cache) the index
is built by a loop whose variable `op_type` shadows the parameter, so the
final lookup uses the last iterated node's `op_type` (or the parameter when
the node table is empty); afterwards the cached index is consulted.
Returns the result list and the graph with its (possibly newly built)
cache. -/
def get_ops_by_type (g : UTensorGraph) (op_type : String) :
    List OperationInfo × UTensorGraph :=
  if g.type_to_op_map.isEmpty then
    let built : TypeMap × String :=
      g.ops_info.foldl
        (fun acc kv =>
          let op_info := kv.2
          let t := op_info.op_type
          let ops := ((acc.1.lookup t).getD []) ++ [op_info]
          (dictUpdate acc.1 t ops, t))
        ([], op_type)
    (((built.1.lookup built.2).getD []), { g with type_to_op_map := built.1 })
  else
    (((g.type_to_op_map.lookup op_type).getD []), g)

/-- `uTensorGraph.add_op`: duplicate names raise before any mutation;
otherwise the node is inserted and `topologic_order_graph` recomputes the
order.  (The `isinstance` check is type-level.)  The cache
`_type_to_op_map` is not touched. -/
def add_op (g : UTensorGraph) (op : OperationInfo) :
    Except UErr Unit × UTensorGraph :=
  if op.name ∈ dictKeys g.ops_info then
    (.error .duplicateOp, g)
  else
    (.ok (),
     { g with
       ops_info := (g.ops_info ++ [(op.name, op)]),
       topo_order := topologic_order_graph (g.ops_info ++ [(op.name, op)]) })

/-- `uTensorGraph.drop_op`: an unknown name raises before any mutation;
otherwise the entry is deleted from the node table and then
`topo_order.remove(op_name)` runs — Python `list.remove` raises when the
name is absent from `topo_order`, and by then the node table is already
mutated.  The cache `_type_to_op_map` is not touched. -/
def drop_op (g : UTensorGraph) (op_name : String) :
    Except UErr Unit × UTensorGraph :=
  if op_name ∈ dictKeys g.ops_info then
    if op_name ∈ g.topo_order then
      (.ok (),
       { g with
         ops_info := (dictDel g.ops_info op_name),
         topo_order := g.topo_order.erase op_name })
    else
      (.error .removeMissing, { g with ops_info := dictDel g.ops_info op_name })
  else
    (.error .opNotFound, g)

/-- `uTensorGraph.__deepcopy__` (value level): a fresh graph is constructed
from the same declared outputs (re-running the post-init check), every node
is deep-copied into a fresh node table (deep copy of a node rebuilds equal
tensors bound by the same names, hence an equal value), the backend is
copied, and the order is recomputed on the copy.  `_type_to_op_map` is an
`init=False` factory field, so the copy starts with an empty cache. -/
def deepcopy (g : UTensorGraph) : Except UErr UTensorGraph :=
  match UTensorGraph.construct g.output_nodes "" [] with
  | .error e => .error e
  | .ok ng =>
    let ng := { ng with ops_info := g.ops_info, backend := g.backend }
    .ok { ng with topo_order := topologic_order_graph ng.ops_info }

end UTensorGraph

/-! ## Shallow copy -/

/-- `_NoShallowCopyMixin.__copy__` as inherited by `TensorInfo`:
unconditionally raises `RuntimeError`. -/
def TensorInfo.copyShallow (_ : TensorInfo) : Except UErr TensorInfo :=
  .error .shallowCopyNotAllowed

/-- `_NoShallowCopyMixin.__copy__` as inherited by `OperationInfo`:
unconditionally raises `RuntimeError`. -/
def OperationInfo.copyShallow (_ : OperationInfo) :
    Except UErr OperationInfo :=
  .error .shallowCopyNotAllowed

/-- `_NoShallowCopyMixin.__copy__` as inherited by `uTensorGraph`:
unconditionally raises `RuntimeError`. -/
def UTensorGraph.copyShallow (_ : UTensorGraph) :
    Except UErr UTensorGraph :=
  .error .shallowCopyNotAllowed

/-! ## Topological validity -/

/-- The per-node order condition: if `c` resolves in the table, all its
resolvable input producers are already placed. -/
def nodeOk (d : OpsDict) (placed : List String) (c : String) : Bool :=
  match d.lookup c with
  | some op => readyB d placed op
  | none => true

/-- `orderedFromB d placed l`: walking `l` left to right, every node's
resolvable input producers lie in `placed` extended by the part of `l`
already walked — the producer-before-consumer condition relative to a
prefix `placed`. -/
def orderedFromB (d : OpsDict) (placed : List String) : List String → Bool
  | [] => true
  | c :: rest => nodeOk d placed c && orderedFromB d (placed ++ [c]) rest

/-- `ord` is a valid topological order over the node table `d`: no
duplicates, exactly the names of `d`, and every node's resolvable input
producers appear strictly earlier. -/
def topoValid (d : OpsDict) (ord : List String) : Prop :=
  ord.Nodup ∧ (∀ n ∈ ord, n ∈ dictKeys d) ∧ (∀ n ∈ dictKeys d, n ∈ ord) ∧
  orderedFromB d [] ord = true

/-- Decidable acyclicity of the dependency relation of `d`: every nonempty
sublist of the key list contains a node none of whose resolvable input
producers lies in the sublist. -/
def acyclicB (d : OpsDict) : Bool :=
  (dictKeys d).sublists.all (fun S =>
    S.isEmpty || S.any (fun n =>
      match d.lookup n with
      | some op => (resolvableProducers d op).all (fun p => !S.contains p)
      | none => true))

/-! ## Dictionary lemmas -/

theorem lookup_isSome_of_mem_keys {α : Type} {d : List (String × α)}
    {k : String} (h : k ∈ dictKeys d) : (d.lookup k).isSome := by
  induction d with
  | nil => simp [dictKeys] at h
  | cons kv rest ih =>
    obtain ⟨a, b⟩ := kv
    by_cases hk : k = a
    · simp [List.lookup, hk]
    · have h' : k ∈ dictKeys rest := by
        simp [dictKeys] at h ⊢
        tauto
      have hstep : List.lookup k ((a, b) :: rest) = List.lookup k rest := by
        simp [List.lookup, beq_false_of_ne hk]
      rw [hstep]
      exact ih h'

theorem mem_keys_of_lookup_isSome {α : Type} {d : List (String × α)}
    {k : String} (h : (d.lookup k).isSome) : k ∈ dictKeys d := by
  induction d with
  | nil => simp [List.lookup] at h
  | cons kv rest ih =>
    obtain ⟨a, b⟩ := kv
    by_cases hk : k = a
    · simp [dictKeys, hk]
    · have hstep : List.lookup k ((a, b) :: rest) = List.lookup k rest := by
        simp [List.lookup, beq_false_of_ne hk]
      rw [hstep] at h
      have := ih h
      simp [dictKeys] at this ⊢
      tauto

theorem lookup_eq_some_of_mem {α : Type} {d : List (String × α)}
    {k : String} {v : α} (hnd : (dictKeys d).Nodup) (h : (k, v) ∈ d) :
    d.lookup k = some v := by
  induction d with
  | nil => simp at h
  | cons kv rest ih =>
    obtain ⟨a, b⟩ := kv
    obtain ⟨ha, hrest⟩ := List.nodup_cons.mp hnd
    rcases List.mem_cons.mp h with h | h
    · simp at h
      obtain ⟨h1, h2⟩ := h
      simp [h1, h2, List.lookup]
    · have hk : k ≠ a := by
        intro he
        have hmem : k ∈ dictKeys rest := by
          simpa [dictKeys] using List.mem_map_of_mem Prod.fst h
        rw [he] at hmem
        exact ha hmem
      simp [List.lookup, beq_false_of_ne hk]
      exact ih hrest h

theorem mem_of_lookup_eq_some {α : Type} {d : List (String × α)}
    {k : String} {v : α} (h : d.lookup k = some v) : (k, v) ∈ d := by
  induction d with
  | nil => simp [List.lookup] at h
  | cons kv rest ih =>
    obtain ⟨a, b⟩ := kv
    by_cases hk : k = a
    · subst hk
      simp [List.lookup] at h
      subst h
      exact List.mem_cons_self _ _
    · simp [List.lookup, beq_false_of_ne hk] at h
      exact List.mem_cons_of_mem _ (ih h)

theorem lookup_dictDel {α : Type} (d : List (String × α)) (x k : String)
    (hk : k ≠ x) : (dictDel d x).lookup k = d.lookup k := by
  induction d with
  | nil => simp [dictDel]
  | cons kv rest ih =>
    obtain ⟨a, b⟩ := kv
    by_cases hx : a = x
    · have hka : k ≠ a := fun he => hk (he.trans hx)
      have hdel : dictDel ((a, b) :: rest) x = dictDel rest x := by
        simp [dictDel, hx]
      rw [hdel, ih]
      simp [List.lookup, beq_false_of_ne hka]
    · have hdel : dictDel ((a, b) :: rest) x = (a, b) :: dictDel rest x := by
        simp [dictDel, hx]
      rw [hdel]
      by_cases hkk : k = a
      · simp [List.lookup, hkk]
      · simp [List.lookup, beq_false_of_ne hkk]
        exact ih

theorem dictKeys_dictDel {α : Type} (d : List (String × α)) (x : String) :
    dictKeys (dictDel d x) = (dictKeys d).filter (fun k => k ≠ x) := by
  induction d with
  | nil => simp [dictDel, dictKeys]
  | cons kv rest ih =>
    obtain ⟨a, b⟩ := kv
    by_cases hx : a = x
    · have hdel : dictDel ((a, b) :: rest) x = dictDel rest x := by
        simp [dictDel, hx]
      rw [hdel, ih]
      simp [dictKeys, hx]
    · have hdel : dictDel ((a, b) :: rest) x = (a, b) :: dictDel rest x := by
        simp [dictDel, hx]
      rw [hdel]
      simp [dictKeys, hx] at ih ⊢
      exact ih

/-! ## Ordering lemmas -/

theorem readyB_mono {d : OpsDict} {P Q : List String}
    (hPQ : ∀ x ∈ P, x ∈ Q) {op : OperationInfo}
    (h : readyB d P op = true) : readyB d Q op = true := by
  simp [readyB, List.all_eq_true] at h ⊢
  intro p hp
  exact hPQ p (h p hp)

theorem nodeOk_mono {d : OpsDict} {P Q : List String}
    (hPQ : ∀ x ∈ P, x ∈ Q) {c : String}
    (h : nodeOk d P c = true) : nodeOk d Q c = true := by
  unfold nodeOk at h ⊢
  cases hc : d.lookup c with
  | none => rfl
  | some op =>
    rw [hc] at h
    exact readyB_mono hPQ h

theorem orderedFromB_mono (d : OpsDict) :
    ∀ (l P Q : List String), (∀ x ∈ P, x ∈ Q) →
      orderedFromB d P l = true → orderedFromB d Q l = true := by
  intro l
  induction l with
  | nil =>
    intro P Q _ _
    simp [orderedFromB]
  | cons c rest ih =>
    intro P Q hPQ hl
    simp [orderedFromB] at hl ⊢
    refine ⟨nodeOk_mono hPQ hl.1, ?_⟩
    apply ih (P ++ [c]) (Q ++ [c]) _ hl.2
    intro x hx
    rcases List.mem_append.mp hx with hx | hx
    · exact List.mem_append.mpr (Or.inl (hPQ x hx))
    · exact List.mem_append.mpr (Or.inr hx)

theorem orderedFromB_append (d : OpsDict) :
    ∀ (A P B : List String),
      orderedFromB d P (A ++ B) =
        (orderedFromB d P A && orderedFromB d (P ++ A) B) := by
  intro A
  induction A with
  | nil =>
    intro P B
    simp [orderedFromB]
  | cons c A' ih =>
    intro P B
    show orderedFromB d P (c :: (A' ++ B)) = _
    rw [show orderedFromB d P (c :: (A' ++ B)) =
          (nodeOk d P c && orderedFromB d (P ++ [c]) (A' ++ B)) from rfl,
        ih (P ++ [c]) B]
    rw [show orderedFromB d P (c :: A') =
          (nodeOk d P c && orderedFromB d (P ++ [c]) A') from rfl]
    rw [Bool.and_assoc, List.append_cons P c A']

theorem orderedFromB_of_all_ok (d : OpsDict) :
    ∀ (l P : List String), (∀ c ∈ l, nodeOk d P c = true) →
      orderedFromB d P l = true := by
  intro l
  induction l with
  | nil =>
    intro P _
    simp [orderedFromB]
  | cons c rest ih =>
    intro P h
    simp [orderedFromB]
    refine ⟨h c (List.mem_cons_self c rest), ?_⟩
    apply ih
    intro c' hc'
    apply nodeOk_mono _ (h c' (List.mem_cons_of_mem c hc'))
    intro x hx
    exact List.mem_append.mpr (Or.inl hx)

theorem kahnRound_sublist_keys (d : OpsDict) (P : List String) :
    List.Sublist (kahnRound d P) (dictKeys d) := by
  unfold kahnRound dictKeys
  exact (List.filter_sublist d).map Prod.fst

theorem kahnRound_nodup {d : OpsDict} (hnd : (dictKeys d).Nodup)
    (P : List String) : (kahnRound d P).Nodup :=
  hnd.sublist (kahnRound_sublist_keys d P)

theorem mem_kahnRound_elim {d : OpsDict} (hnd : (dictKeys d).Nodup)
    {P : List String} {n : String} (h : n ∈ kahnRound d P) :
    n ∉ P ∧ n ∈ dictKeys d ∧ nodeOk d P n = true := by
  unfold kahnRound dictKeys at h
  rcases List.mem_map.mp h with ⟨kv, hkv, hfst⟩
  rcases List.mem_filter.mp hkv with ⟨hmem, hcond⟩
  simp at hcond
  obtain ⟨hnp, hready⟩ := hcond
  subst hfst
  refine ⟨by simpa using hnp, List.mem_map_of_mem Prod.fst hmem, ?_⟩
  have hlk : d.lookup kv.1 = some kv.2 :=
    lookup_eq_some_of_mem hnd (by simpa using hmem)
  unfold nodeOk
  rw [hlk]
  exact hready

theorem mem_kahnRound_intro {d : OpsDict} {P : List String} {n : String}
    {op : OperationInfo} (hlk : d.lookup n = some op) (hnp : n ∉ P)
    (hready : readyB d P op = true) : n ∈ kahnRound d P := by
  unfold kahnRound dictKeys
  apply List.mem_map.mpr
  refine ⟨(n, op), List.mem_filter.mpr ⟨mem_of_lookup_eq_some hlk, ?_⟩, rfl⟩
  simp [hready]
  exact hnp

theorem subset_kahnAux (d : OpsDict) :
    ∀ (fuel : Nat) (placed : List String) (n : String),
      n ∈ placed → n ∈ kahnAux d fuel placed := by
  intro fuel
  induction fuel with
  | zero =>
    intro placed n h
    simpa [kahnAux] using h
  | succ f ih =>
    intro placed n h
    unfold kahnAux
    by_cases he : (kahnRound d placed).isEmpty
    · rw [if_pos he]
      exact h
    · rw [if_neg he]
      exact ih _ _ (List.mem_append.mpr (Or.inl h))

theorem kahnAux_sound (d : OpsDict) (hnd : (dictKeys d).Nodup) :
    ∀ (fuel : Nat) (placed : List String),
      placed.Nodup → (∀ n ∈ placed, n ∈ dictKeys d) →
      orderedFromB d [] placed = true →
      (kahnAux d fuel placed).Nodup ∧
      (∀ n ∈ kahnAux d fuel placed, n ∈ dictKeys d) ∧
      orderedFromB d [] (kahnAux d fuel placed) = true := by
  intro fuel
  induction fuel with
  | zero =>
    intro placed h1 h2 h3
    exact ⟨h1, h2, h3⟩
  | succ f ih =>
    intro placed h1 h2 h3
    unfold kahnAux
    by_cases he : (kahnRound d placed).isEmpty
    · rw [if_pos he]
      exact ⟨h1, h2, h3⟩
    · rw [if_neg he]
      apply ih
      · refine List.Nodup.append h1 (kahnRound_nodup hnd placed) ?_
        intro a ha hb
        exact (mem_kahnRound_elim hnd hb).1 ha
      · intro n hn
        rcases List.mem_append.mp hn with hn | hn
        · exact h2 n hn
        · exact (mem_kahnRound_elim hnd hn).2.1
      · rw [orderedFromB_append d placed [] (kahnRound d placed),
            List.nil_append]
        simp [h3]
        apply orderedFromB_of_all_ok
        intro c hc
        exact (mem_kahnRound_elim hnd hc).2.2

theorem length_filter_lt_of_mem {l : List String} {p : String → Bool}
    {m : String} (hm : m ∈ l) (hpm : p m = false) :
    (l.filter p).length < l.length := by
  induction l with
  | nil => simp at hm
  | cons a t ih =>
    rcases List.mem_cons.mp hm with hm | hm
    · subst hm
      rw [List.filter_cons, hpm]
      simp
      exact Nat.lt_succ_of_le (List.length_filter_le p t)
    · rw [List.filter_cons]
      by_cases hpa : p a = true
      · simp [hpa]
        exact ih hm
      · rw [Bool.not_eq_true] at hpa
        simp [hpa]
        exact Nat.lt_succ_of_lt (ih hm)

theorem contains_eq_decide_mem (l : List String) (a : String) :
    l.contains a = decide (a ∈ l) := by
  by_cases h : a ∈ l <;> simp [h]

theorem kahnAux_complete (d : OpsDict)
    (hac : acyclicB d = true) :
    ∀ (fuel : Nat) (placed : List String),
      ((dictKeys d).filter (fun k => !placed.contains k)).length ≤ fuel →
      ∀ n ∈ dictKeys d, n ∈ kahnAux d fuel placed := by
  unfold acyclicB at hac
  intro fuel
  induction fuel with
  | zero =>
    intro placed hlen n hn
    have hfil : (dictKeys d).filter (fun k => !placed.contains k) = [] :=
      List.length_eq_zero.mp (Nat.le_zero.mp hlen)
    by_cases hp : n ∈ placed
    · simpa [kahnAux] using hp
    · exfalso
      have hmem : n ∈ (dictKeys d).filter (fun k => !placed.contains k) :=
        List.mem_filter.mpr ⟨hn, by simp [contains_eq_decide_mem, hp]⟩
      rw [hfil] at hmem
      simp at hmem
  | succ f ih =>
    intro placed hlen n hn
    by_cases hp : n ∈ placed
    · exact subset_kahnAux d (f + 1) placed n hp
    · set S := (dictKeys d).filter (fun k => !placed.contains k) with hSdef
      have hnS : n ∈ S :=
        List.mem_filter.mpr ⟨hn, by simp [contains_eq_decide_mem, hp]⟩
      have hall := List.all_eq_true.mp hac S
        (List.mem_sublists.mpr (List.filter_sublist _))
      have hSne : S.isEmpty = false := by
        cases hSe : S.isEmpty
        · rfl
        · exfalso
          have hnil : S = [] := by simpa using hSe
          rw [hnil] at hnS
          simp at hnS
      rw [hSne, Bool.false_or] at hall
      obtain ⟨m, hmS, hcond⟩ := List.any_eq_true.mp hall
      obtain ⟨hmK, hmNp'⟩ := List.mem_filter.mp hmS
      have hmNp : m ∉ placed := by
        simpa [contains_eq_decide_mem] using hmNp'
      obtain ⟨op, hop⟩ :=
        Option.isSome_iff_exists.mp (lookup_isSome_of_mem_keys hmK)
      rw [hop] at hcond
      have hcond' : ∀ p ∈ resolvableProducers d op, p ∉ S := by
        intro p hp'
        have hc := List.all_eq_true.mp hcond p hp'
        simpa [contains_eq_decide_mem] using hc
      have hready : readyB d placed op = true := by
        rw [readyB, List.all_eq_true]
        intro p hp'
        have hpK : p ∈ dictKeys d := by
          have hp'' := hp'
          unfold resolvableProducers at hp''
          have hsome := (List.mem_filter.mp hp'').2
          exact mem_keys_of_lookup_isSome (by simpa using hsome)
        by_contra hpc
        have hppn : p ∉ placed := fun hmem =>
          hpc (by simp [contains_eq_decide_mem, hmem])
        exact hcond' p hp'
          (List.mem_filter.mpr ⟨hpK, by simp [contains_eq_decide_mem, hppn]⟩)
      have hmRound : m ∈ kahnRound d placed :=
        mem_kahnRound_intro hop hmNp hready
      have hRne : (kahnRound d placed).isEmpty = false := by
        cases hR : (kahnRound d placed).isEmpty
        · rfl
        · exfalso
          have hnil : kahnRound d placed = [] := by simpa using hR
          rw [hnil] at hmRound
          simp at hmRound
      have hmeas :
          ((dictKeys d).filter
            (fun k => !(placed ++ kahnRound d placed).contains k)).length ≤ f := by
        have heq : (dictKeys d).filter
            (fun k => !(placed ++ kahnRound d placed).contains k)
            = S.filter (fun k => !(kahnRound d placed).contains k) := by
          rw [hSdef, List.filter_filter]
          apply List.filter_congr
          intro a _
          by_cases h1 : a ∈ placed <;> by_cases h2 : a ∈ kahnRound d placed <;>
            simp [contains_eq_decide_mem, h1, h2]
        have hlt : (S.filter
            (fun k => !(kahnRound d placed).contains k)).length < S.length := by
          apply length_filter_lt_of_mem hmS
          simp [contains_eq_decide_mem, hmRound]
        rw [heq]
        exact Nat.lt_succ_iff.mp (Nat.lt_of_lt_of_le hlt hlen)
      unfold kahnAux
      rw [if_neg (by simp [hRne])]
      exact ih (placed ++ kahnRound d placed) hmeas n hn

/-- For a node table with distinct keys and an acyclic dependency relation,
the recomputed order is a valid topological order. -/
theorem topologic_order_graph_valid (d : OpsDict)
    (hnd : (dictKeys d).Nodup) (hac : acyclicB d = true) :
    topoValid d (topologic_order_graph d) := by
  have hs := kahnAux_sound d hnd d.length []
    (List.nodup_nil) (by intro n hn; simp at hn) (by rfl)
  have hmeas : ((dictKeys d).filter (fun k => !List.contains [] k)).length
      ≤ d.length := by
    calc ((dictKeys d).filter (fun k => !List.contains [] k)).length
        ≤ (dictKeys d).length := List.length_filter_le _ _
      _ = d.length := List.length_map d Prod.fst
  have hc := kahnAux_complete d hac d.length [] hmeas
  exact ⟨hs.1, hs.2.1, hc, hs.2.2⟩

theorem lookup_dictDel_self {α : Type} (d : List (String × α)) (x : String) :
    (dictDel d x).lookup x = none := by
  cases hl : (dictDel d x).lookup x with
  | none => rfl
  | some op =>
    exfalso
    have hx : x ∈ dictKeys (dictDel d x) :=
      mem_keys_of_lookup_isSome (by simp [hl])
    rw [dictKeys_dictDel] at hx
    have := (List.mem_filter.mp hx).2
    simp at this

theorem mem_resolvableProducers_dictDel {d : OpsDict} {x p : String}
    {op : OperationInfo} (hp : p ∈ resolvableProducers (dictDel d x) op) :
    p ≠ x ∧ p ∈ resolvableProducers d op := by
  unfold resolvableProducers at hp ⊢
  obtain ⟨hmap, hsome⟩ := List.mem_filter.mp hp
  have hpx : p ≠ x := by
    intro he
    rw [he, lookup_dictDel_self] at hsome
    simp at hsome
  refine ⟨hpx, List.mem_filter.mpr ⟨hmap, ?_⟩⟩
  rw [lookup_dictDel d x p hpx] at hsome
  exact hsome

theorem nodeOk_dictDel {d : OpsDict} {x c : String} {P' P : List String}
    (hsub : ∀ y ∈ P', y ≠ x → y ∈ P)
    (h : nodeOk d P' c = true) : nodeOk (dictDel d x) P c = true := by
  by_cases hc : c = x
  · unfold nodeOk
    rw [hc, lookup_dictDel_self]
  · unfold nodeOk at h ⊢
    rw [lookup_dictDel d x c hc]
    cases hl : d.lookup c with
    | none => rfl
    | some op =>
      rw [hl] at h
      have h2 : readyB d P' op = true := h
      show readyB (dictDel d x) P op = true
      rw [readyB, List.all_eq_true] at h2 ⊢
      intro p hp
      obtain ⟨hpx, hpd⟩ := mem_resolvableProducers_dictDel hp
      have hP' : p ∈ P' := by
        have := h2 p hpd
        simpa [contains_eq_decide_mem] using this
      simp [contains_eq_decide_mem]
      exact hsub p hP' hpx

theorem orderedFromB_dictDel_transfer (d : OpsDict) (x : String) :
    ∀ (l P' P : List String), (∀ y ∈ P', y ≠ x → y ∈ P) →
      orderedFromB d P' l = true →
      orderedFromB (dictDel d x) P l = true := by
  intro l
  induction l with
  | nil =>
    intro P' P _ _
    simp [orderedFromB]
  | cons c rest ih =>
    intro P' P hsub hl
    simp [orderedFromB] at hl ⊢
    refine ⟨nodeOk_dictDel hsub hl.1, ?_⟩
    apply ih (P' ++ [c]) (P ++ [c]) _ hl.2
    intro y hy hyx
    rcases List.mem_append.mp hy with hy | hy
    · exact List.mem_append.mpr (Or.inl (hsub y hy hyx))
    · exact List.mem_append.mpr (Or.inr hy)

theorem orderedFromB_dictDel_erase (d : OpsDict) (x : String) :
    ∀ (l P' P : List String), (∀ y ∈ P', y ≠ x → y ∈ P) →
      orderedFromB d P' l = true →
      orderedFromB (dictDel d x) P (l.erase x) = true := by
  intro l
  induction l with
  | nil =>
    intro P' P _ _
    simp [orderedFromB]
  | cons c rest ih =>
    intro P' P hsub hl
    simp [orderedFromB] at hl
    by_cases hc : c = x
    · have herase : (c :: rest).erase x = rest := by
        simp [List.erase_cons, hc]
      rw [herase]
      apply orderedFromB_dictDel_transfer d x rest (P' ++ [c]) P _ hl.2
      intro y hy hyx
      rcases List.mem_append.mp hy with hy | hy
      · exact hsub y hy hyx
      · exfalso
        simp at hy
        rw [hy, hc] at hyx
        exact hyx rfl
    · have herase : (c :: rest).erase x = c :: rest.erase x := by
        simp [List.erase_cons, hc]
      rw [herase]
      simp [orderedFromB]
      refine ⟨nodeOk_dictDel hsub hl.1, ?_⟩
      apply ih (P' ++ [c]) (P ++ [c]) _ hl.2
      intro y hy hyx
      rcases List.mem_append.mp hy with hy | hy
      · exact List.mem_append.mpr (Or.inl (hsub y hy hyx))
      · exact List.mem_append.mpr (Or.inr hy)

/-- Dropping a node from the table and erasing its name from a valid
topological order leaves a valid topological order over the remaining
nodes. -/
theorem topoValid_dictDel {d : OpsDict} {ord : List String} (x : String)
    (h : topoValid d ord) : topoValid (dictDel d x) (ord.erase x) := by
  obtain ⟨hnd, hsub, hsup, hord⟩ := h
  refine ⟨hnd.erase x, ?_, ?_, ?_⟩
  · intro n hn
    obtain ⟨hnx, hmem⟩ := (List.Nodup.mem_erase_iff hnd).mp hn
    rw [dictKeys_dictDel]
    exact List.mem_filter.mpr ⟨hsub n hmem, by simp [hnx]⟩
  · intro n hn
    rw [dictKeys_dictDel] at hn
    obtain ⟨hk, hx⟩ := List.mem_filter.mp hn
    exact (List.Nodup.mem_erase_iff hnd).mpr ⟨by simpa using hx, hsup n hk⟩
  · apply orderedFromB_dictDel_erase d x ord [] []
    · intro y hy
      simp at hy
    · exact hord

/-! ## Object-identity model

The Python objects are mutable: to settle the copy-independence claim the
graph's mutable containers are modelled as reference cells in a heap, so
that sharing between a graph and its deep copy is observable.  A
`uTensorGraph` object holds references to its `output_nodes` list, its
`ops_info` dict, its `topo_order` list and its `_type_to_op_map` dict;
operation and tensor objects are never mutated through any claimed
operation and stay pure values inside the dict cells. -/

/-- A `uTensorGraph` object: reference cells for the mutable containers,
plus the (object-local) backend tag. -/
structure MemGraph where
  output_nodes : Nat
  ops_info : Nat
  topo_order : Nat
  type_to_op_map : Nat
  backend : String
  deriving DecidableEq, Repr

/-- The heap: one store per container type. -/
structure Heap where
  listCells : List (List String)
  dictCells : List OpsDict
  mapCells : List TypeMap
  deriving DecidableEq, Repr

def Heap.readList (h : Heap) (r : Nat) : List String := h.listCells.getD r []

def Heap.readDict (h : Heap) (r : Nat) : OpsDict := h.dictCells.getD r []

def Heap.writeList (h : Heap) (r : Nat) (v : List String) : Heap :=
  { h with listCells := h.listCells.set r v }

def Heap.writeDict (h : Heap) (r : Nat) (v : OpsDict) : Heap :=
  { h with dictCells := h.dictCells.set r v }

def Heap.allocList (h : Heap) (v : List String) : Heap × Nat :=
  ({ h with listCells := h.listCells ++ [v] }, h.listCells.length)

def Heap.allocDict (h : Heap) (v : OpsDict) : Heap × Nat :=
  ({ h with dictCells := h.dictCells ++ [v] }, h.dictCells.length)

def Heap.allocMap (h : Heap) (v : TypeMap) : Heap × Nat :=
  ({ h with mapCells := h.mapCells ++ [v] }, h.mapCells.length)

namespace MemGraph

/-- Object-level `uTensorGraph(output_nodes=...)`: the attrs factory fields
allocate fresh empty containers for `ops_info`, `topo_order` and
`_type_to_op_map`, while the passed `output_nodes` list object is stored as
is (no copy); then the post-init check runs. -/
def construct (h : Heap) (outRef : Nat) (backend : String) :
    Except UErr (Heap × MemGraph) :=
  let a1 := h.allocDict []
  let a2 := a1.1.allocList []
  let a3 := a2.1.allocMap []
  if (h.readList outRef).isEmpty then
    .error .emptyOutputSet
  else
    .ok (a3.1, { output_nodes := outRef, ops_info := a1.2,
                 topo_order := a2.2, type_to_op_map := a3.2,
                 backend := backend })

/-- Object-level `uTensorGraph.__deepcopy__`: construct a fresh graph
object passing the original's `output_nodes` list object, fill its fresh
node-table cell with the deep-copied entries (deep copy of a node rebuilds
an equal value, references being name-keyed), copy the backend tag, and
recompute the order into the fresh `topo_order` cell. -/
def deepcopy (h : Heap) (g : MemGraph) : Except UErr (Heap × MemGraph) :=
  match construct h g.output_nodes "" with
  | .error e => .error e
  | .ok (h1, ng) =>
    let h2 := h1.writeDict ng.ops_info (h.readDict g.ops_info)
    let h3 := h2.writeList ng.topo_order
      (topologic_order_graph (h2.readDict ng.ops_info))
    .ok (h3, { ng with backend := g.backend })

/-- Object-level `uTensorGraph.drop_op`: mutates (through the receiver's
references only) the node-table cell and then the `topo_order` cell;
raises without further mutation when the name is unknown, and after the
table deletion when `list.remove` misses. -/
def drop_op (h : Heap) (g : MemGraph) (op_name : String) :
    Except UErr Unit × Heap :=
  if op_name ∈ dictKeys (h.readDict g.ops_info) then
    if op_name ∈ h.readList g.topo_order then
      (.ok (), (h.writeDict g.ops_info
          (dictDel (h.readDict g.ops_info) op_name)).writeList g.topo_order
        ((h.readList g.topo_order).erase op_name))
    else
      (.error .removeMissing,
       h.writeDict g.ops_info (dictDel (h.readDict g.ops_info) op_name))
  else
    (.error .opNotFound, h)

end MemGraph

theorem Heap.readList_writeList_ne (h : Heap) (r r' : Nat) (v : List String)
    (hne : r ≠ r') : (h.writeList r v).readList r' = h.readList r' := by
  simp [Heap.readList, Heap.writeList, List.getElem?_set_ne hne]

theorem Heap.readList_writeDict (h : Heap) (r r' : Nat) (v : OpsDict) :
    (h.writeDict r v).readList r' = h.readList r' := rfl

theorem Heap.readDict_writeList (h : Heap) (r r' : Nat) (v : List String) :
    (h.writeList r v).readDict r' = h.readDict r' := rfl

theorem Heap.readDict_writeDict_ne (h : Heap) (r r' : Nat) (v : OpsDict)
    (hne : r ≠ r') : (h.writeDict r v).readDict r' = h.readDict r' := by
  simp [Heap.readDict, Heap.writeDict, List.getElem?_set_ne hne]

theorem Heap.readDict_writeDict_self (h : Heap) (r : Nat) (v : OpsDict)
    (hr : r < h.dictCells.length) : (h.writeDict r v).readDict r = v := by
  simp [Heap.readDict, Heap.writeDict, List.getElem?_set_self hr]

theorem Heap.readList_writeList_self (h : Heap) (r : Nat) (v : List String)
    (hr : r < h.listCells.length) : (h.writeList r v).readList r = v := by
  simp [Heap.readList, Heap.writeList, List.getElem?_set_self hr]

theorem listGetD_append_left {α : Type} (l l' : List α) (r : Nat) (d : α)
    (h : r < l.length) : (l ++ l').getD r d = l.getD r d := by
  simp [List.getD_eq_getElem?_getD, List.getElem?_append_left h]

/-- Normal form of a successful object-level deep copy: two fresh cells are
written (the copied node table and the recomputed order), one fresh map
cell stays empty, and the new graph object shares only the `output_nodes`
list reference with the original. -/
theorem MemGraph.deepcopy_ok_form (h : Heap) (g : MemGraph)
    (hne : (h.readList g.output_nodes).isEmpty = false) :
    MemGraph.deepcopy h g = .ok
      ({ listCells := (h.listCells ++ [[]]).set h.listCells.length
            (topologic_order_graph (h.readDict g.ops_info)),
         dictCells := (h.dictCells ++ [[]]).set h.dictCells.length
            (h.readDict g.ops_info),
         mapCells := h.mapCells ++ [[]] },
       { output_nodes := g.output_nodes,
         ops_info := h.dictCells.length,
         topo_order := h.listCells.length,
         type_to_op_map := h.mapCells.length,
         backend := g.backend }) := by
  unfold MemGraph.deepcopy MemGraph.construct
  simp [hne, Heap.allocDict, Heap.allocList, Heap.allocMap,
        Heap.writeDict, Heap.writeList, Heap.readDict,
        List.getElem?_set_self, List.getElem?_append_left,
        Nat.lt_succ_self]

/-! ## Further dictionary and dedup lemmas -/

theorem lookup_append_right {α : Type} (d e : List (String × α)) (k : String)
    (h : k ∉ dictKeys d) : (d ++ e).lookup k = e.lookup k := by
  induction d with
  | nil => rfl
  | cons kv rest ih =>
    obtain ⟨a, b⟩ := kv
    have hk : k ≠ a := by
      intro he
      exact h (by simp [dictKeys, he])
    have hrest : k ∉ dictKeys rest := by
      intro hm
      exact h (by simp [dictKeys] at hm ⊢; exact Or.inr hm)
    simp [List.lookup, beq_false_of_ne hk]
    exact ih hrest

theorem dictKeys_dictUpdate_mem {α : Type} (d : List (String × α))
    (k : String) (v : α) (h : k ∈ dictKeys d) :
    dictKeys (dictUpdate d k v) = dictKeys d := by
  unfold dictUpdate
  rw [if_pos h]
  unfold dictKeys
  rw [List.map_map]
  apply List.map_congr_left
  intro p _
  by_cases hp : p.1 = k
  · simp [hp]
  · simp [hp]

theorem lookup_map_update_self {α : Type} (d : List (String × α))
    (k : String) (v : α) (h : k ∈ dictKeys d) :
    (d.map (fun p => if p.1 = k then (k, v) else p)).lookup k = some v := by
  induction d with
  | nil => simp [dictKeys] at h
  | cons kv rest ih =>
    obtain ⟨a, b⟩ := kv
    by_cases ha : a = k
    · subst ha
      have hif : (if ((a, b) : String × α).1 = a then (a, v) else (a, b))
          = (a, v) := by simp
      rw [List.map_cons, hif]
      simp [List.lookup]
    · have hk : k ≠ a := fun he => ha he.symm
      have hrest : k ∈ dictKeys rest := by
        simp [dictKeys] at h
        rcases h with h | h
        · exact absurd h.symm ha
        · simpa [dictKeys] using h
      rw [List.map_cons]
      have hif : (if ((a, b) : String × α).1 = k then (k, v) else (a, b))
          = (a, b) := by simp [ha]
      rw [hif]
      have hstep : List.lookup k
          ((a, b) :: List.map (fun p : String × α => if p.1 = k then (k, v) else p) rest)
          = List.lookup k (List.map (fun p : String × α => if p.1 = k then (k, v) else p) rest) := by
        simp [List.lookup, beq_false_of_ne hk]
      rw [hstep]
      exact ih hrest

theorem lookup_dictUpdate_self {α : Type} (d : List (String × α))
    (k : String) (v : α) : (dictUpdate d k v).lookup k = some v := by
  unfold dictUpdate
  by_cases h : k ∈ dictKeys d
  · rw [if_pos h]
    exact lookup_map_update_self d k v h
  · rw [if_neg h, lookup_append_right d _ k h]
    simp [List.lookup]

/-- First-occurrence deduplication (what CPython's membership-guarded
append loop computes), written as a direct recursion for the spec-side
description of `input_nodes`. -/
def dedupFirst : List String → List String
  | [] => []
  | x :: xs => x :: (dedupFirst xs).filter (fun y => y ≠ x)

theorem dedupFirst_filter_ne (n : String) :
    ∀ (l : List String),
      dedupFirst (l.filter (fun y => y ≠ n)) =
        (dedupFirst l).filter (fun y => y ≠ n) := by
  intro l
  induction l with
  | nil => rfl
  | cons x xs ih =>
    by_cases hx : x = n
    · subst hx
      have hfil : (x :: xs).filter (fun y => y ≠ x) = xs.filter (fun y => y ≠ x) := by
        simp
      rw [hfil, ih]
      rw [show dedupFirst (x :: xs)
            = x :: (dedupFirst xs).filter (fun y => y ≠ x) from rfl]
      have hfil2 : (x :: (dedupFirst xs).filter (fun y => y ≠ x)).filter
            (fun y => y ≠ x)
          = ((dedupFirst xs).filter (fun y => y ≠ x)).filter (fun y => y ≠ x) := by
        simp
      rw [hfil2, List.filter_filter]
      apply List.filter_congr
      intro a _
      rw [Bool.and_self]
    · have hfil : (x :: xs).filter (fun y => y ≠ n)
          = x :: xs.filter (fun y => y ≠ n) := by
        simp [hx]
      rw [hfil]
      show x :: (dedupFirst (xs.filter (fun y => y ≠ n))).filter (fun y => y ≠ x)
          = _
      rw [ih]
      rw [show dedupFirst (x :: xs)
            = x :: (dedupFirst xs).filter (fun y => y ≠ x) from rfl]
      have hfil2 : (x :: (dedupFirst xs).filter (fun y => y ≠ x)).filter
            (fun y => y ≠ n)
          = x :: ((dedupFirst xs).filter (fun y => y ≠ x)).filter
              (fun y => y ≠ n) := by
        simp [hx]
      rw [hfil2, List.filter_filter, List.filter_filter]
      congr 1
      apply List.filter_congr
      intro a _
      rw [Bool.and_comm]

theorem foldl_dedup_step :
    ∀ (l acc : List String),
      l.foldl (fun a n => if n ∈ a then a else a ++ [n]) acc
        = acc ++ dedupFirst (l.filter (fun n => n ∉ acc)) := by
  intro l
  induction l with
  | nil =>
    intro acc
    simp [dedupFirst]
  | cons n rest ih =>
    intro acc
    rw [List.foldl_cons]
    by_cases hn : n ∈ acc
    · rw [if_pos hn, ih acc]
      have hfil : (n :: rest).filter (fun m => m ∉ acc)
          = rest.filter (fun m => m ∉ acc) := by
        simp [hn]
      rw [hfil]
    · rw [if_neg hn, ih (acc ++ [n])]
      have hfil : (n :: rest).filter (fun m => m ∉ acc)
          = n :: rest.filter (fun m => m ∉ acc) := by
        simp [hn]
      rw [hfil]
      rw [show dedupFirst (n :: rest.filter (fun m => m ∉ acc))
            = n :: (dedupFirst (rest.filter (fun m => m ∉ acc))).filter
                (fun y => y ≠ n) from rfl]
      have hfil2 : rest.filter (fun m => m ∉ acc ++ [n])
          = (rest.filter (fun m => m ∉ acc)).filter (fun m => m ≠ n) := by
        rw [List.filter_filter]
        apply List.filter_congr
        intro a _
        by_cases h1 : a ∈ acc <;> by_cases h2 : a = n <;>
          simp [h1, h2, List.mem_append]
      rw [hfil2, dedupFirst_filter_ne]
      simp

theorem in_ops_eq_dedupFirst (op : OperationInfo) :
    op.in_ops = dedupFirst (op.input_tensors.map (fun t => t.op_name)) := by
  unfold OperationInfo.in_ops
  rw [← List.foldl_map (fun t : TensorInfo => t.op_name)
        (fun a n => if n ∈ a then a else a ++ [n])]
  rw [foldl_dedup_step]
  have : (op.input_tensors.map (fun t => t.op_name)).filter
      (fun n => n ∉ ([] : List String))
      = op.input_tensors.map (fun t => t.op_name) := by
    simp
  rw [this]
  simp

theorem mem_dedupFirst {n : String} :
    ∀ {l : List String}, n ∈ dedupFirst l ↔ n ∈ l := by
  intro l
  induction l with
  | nil => simp [dedupFirst]
  | cons x xs ih =>
    simp only [dedupFirst, List.mem_cons]
    constructor
    · intro h
      rcases h with h | h
      · exact Or.inl h
      · exact Or.inr (ih.mp (List.mem_of_mem_filter h))
    · intro h
      rcases h with h | h
      · exact Or.inl h
      · by_cases hx : n = x
        · exact Or.inl hx
        · exact Or.inr (List.mem_filter.mpr ⟨ih.mpr h, by simp [hx]⟩)

/-! ## Decidability instances -/

instance exceptDecEq {e a : Type} [DecidableEq e] [DecidableEq a] :
    DecidableEq (Except e a) := fun x y =>
  match x, y with
  | .error u, .error u' =>
    if h : u = u' then isTrue (by rw [h])
    else isFalse (by intro hc; injection hc; contradiction)
  | .error _, .ok _ => isFalse (by intro hc; exact Except.noConfusion hc)
  | .ok _, .error _ => isFalse (by intro hc; exact Except.noConfusion hc)
  | .ok v, .ok v' =>
    if h : v = v' then isTrue (by rw [h])
    else isFalse (by intro hc; injection hc; contradiction)

instance (d : OpsDict) (ord : List String) : Decidable (topoValid d ord) := by
  unfold topoValid
  infer_instance

/-! ## Concrete example graphs (the scenario of the spec, §8) -/

def tA0 : TensorInfo :=
  { name := "A:0", op_name := "A", dtype := "float32",
    shape := some [some 1, some 28] }

def tB0 : TensorInfo :=
  { name := "B:0", op_name := "B", dtype := "float32",
    shape := some [some 1, some 28] }

def tC0 : TensorInfo :=
  { name := "C:0", op_name := "C", dtype := "float32",
    shape := some [some 1, some 28] }

def tD0 : TensorInfo :=
  { name := "D:0", op_name := "D", dtype := "float32",
    shape := some [some 1, some 28] }

def opA : OperationInfo :=
  { name := "A", backend := "tensorflow", input_tensors := [],
    output_tensors := [tA0], op_type := "Placeholder" }

def opB : OperationInfo :=
  { name := "B", backend := "tensorflow", input_tensors := [tA0],
    output_tensors := [tB0], op_type := "Conv2D" }

def opC : OperationInfo :=
  { name := "C", backend := "tensorflow", input_tensors := [tB0],
    output_tensors := [tC0], op_type := "Relu" }

def opD : OperationInfo :=
  { name := "D", backend := "tensorflow", input_tensors := [tC0],
    output_tensors := [tD0], op_type := "Conv2D" }

def exGraph : UTensorGraph :=
  { output_nodes := ["C"], backend := "tensorflow",
    ops_info := [("A", opA), ("B", opB), ("C", opC)],
    topo_order := ["A", "B", "C"], type_to_op_map := [] }

/-! ## Claims -/

/-- **C10**: for every tensor descriptor, operation node and computation
graph, a shallow copy (`copy.copy`, dispatching to
`_NoShallowCopyMixin.__copy__`) always fails with an error; only deep copy
is permitted on these types. -/
theorem C10_shallow_copy_always_fails (t : TensorInfo) (op : OperationInfo)
    (g : UTensorGraph) :
    t.copyShallow = .error .shallowCopyNotAllowed ∧
    op.copyShallow = .error .shallowCopyNotAllowed ∧
    g.copyShallow = .error .shallowCopyNotAllowed :=
  ⟨rfl, rfl, rfl⟩

/-- **C5**: `add_op` with a node whose name is already a key of the node
table fails with the duplicate-name error and returns the graph exactly as
it was — node table and `topo_order` untouched (the error is raised
before any mutation). -/
theorem C5_add_op_duplicate_atomic (g : UTensorGraph) (op : OperationInfo)
    (h : op.name ∈ dictKeys g.ops_info) :
    g.add_op op = (.error .duplicateOp, g) := by
  unfold UTensorGraph.add_op
  rw [if_pos h]

/-- Witness for C5: adding a second node named `"A"` on the example graph
fails and leaves the graph identical. -/
theorem C5_witness :
    ("A" ∈ dictKeys exGraph.ops_info) ∧
    exGraph.add_op
        { name := "A", backend := "tensorflow", input_tensors := [],
          output_tensors := [tA0], op_type := "Conv2D" }
      = (.error .duplicateOp, exGraph) :=
  ⟨by decide, C5_add_op_duplicate_atomic exGraph _ (by decide)⟩

/-- **C8**: constructing a computation graph with an empty
declared-outputs list fails with the empty-output-set error; construction
with a non-empty list succeeds. -/
theorem C8_construct_needs_output_nodes (outs : List String) (bk : String)
    (d : OpsDict) :
    (outs = [] → UTensorGraph.construct outs bk d = .error .emptyOutputSet) ∧
    (outs ≠ [] → UTensorGraph.construct outs bk d
      = .ok { output_nodes := outs, backend := bk, ops_info := d,
              topo_order := [], type_to_op_map := [] }) := by
  constructor
  · intro h
    subst h
    rfl
  · intro h
    unfold UTensorGraph.construct
    rw [if_neg (by simpa using h)]

/-- Witness for C8 at concrete output lists. -/
theorem C8_witness :
    (UTensorGraph.construct [] "tensorflow" [] = .error .emptyOutputSet) ∧
    (UTensorGraph.construct ["C"] "tensorflow" []
      = .ok { output_nodes := ["C"], backend := "tensorflow", ops_info := [],
              topo_order := [], type_to_op_map := [] }) :=
  ⟨(C8_construct_needs_output_nodes [] "tensorflow" []).1 rfl,
   (C8_construct_needs_output_nodes ["C"] "tensorflow" []).2 (by decide)⟩

/-- **C1** counterexample: constructing a node named `"A"` bound to a graph
that already has a node `"A"` does not fail with any error — the
registration assignment silently replaces the previous entry in place
(keys unchanged, value swapped). -/
theorem C1_counterexample :
    dictKeys (OperationInfo.construct exGraph "A" "tensorflow" [] [tA0]
        "Conv2D").2.ops_info = ["A", "B", "C"] ∧
    (OperationInfo.construct exGraph "A" "tensorflow" [] [tA0]
        "Conv2D").2.ops_info.lookup "A"
      = some { name := "A", backend := "tensorflow", input_tensors := [],
               output_tensors := [tA0], op_type := "Conv2D" } ∧
    (OperationInfo.construct exGraph "A" "tensorflow" [] [tA0]
        "Conv2D").2.ops_info.lookup "A" ≠ some opA :=
  ⟨by decide, by decide, by decide⟩

/-- **C1** amended: node construction never checks for a duplicate name:
with a name already present in the target graph it succeeds, keeps the node
table's key sequence unchanged, and replaces the entry for that name with
the newly constructed node. -/
theorem C1_construct_replaces_duplicate (g : UTensorGraph)
    (name backend : String) (its ots : List TensorInfo) (ty : String)
    (h : name ∈ dictKeys g.ops_info) :
    dictKeys (OperationInfo.construct g name backend its ots ty).2.ops_info
      = dictKeys g.ops_info ∧
    (OperationInfo.construct g name backend its ots ty).2.ops_info.lookup name
      = some (OperationInfo.construct g name backend its ots ty).1 := by
  unfold OperationInfo.construct
  exact ⟨dictKeys_dictUpdate_mem _ _ _ h, lookup_dictUpdate_self _ _ _⟩

/-- Witness for the amended C1 at the example graph. -/
theorem C1_witness :
    ("A" ∈ dictKeys exGraph.ops_info) ∧
    dictKeys (OperationInfo.construct exGraph "A" "tensorflow" [] [tA0]
        "Conv2D").2.ops_info = dictKeys exGraph.ops_info :=
  ⟨by decide,
   (C1_construct_replaces_duplicate exGraph "A" "tensorflow" [] [tA0]
      "Conv2D" (by decide)).1⟩

/-- **C6**: `input_nodes` is the lookup image (against the owning graph's
node table, `none` marking an absent producer) of the
first-occurrence-deduplicated producer names of the node's input tensors,
and `is_dangling` holds iff some input tensor's producer name is absent
from the table. -/
theorem C6_input_nodes_dangling (op : OperationInfo) (g : UTensorGraph) :
    op.input_nodes g
      = (dedupFirst (op.input_tensors.map (fun t => t.op_name))).map
          (fun n => g.ops_info.lookup n) ∧
    (op.is_dangling g = true ↔
      ∃ t ∈ op.input_tensors, g.ops_info.lookup t.op_name = none) := by
  have h1 : op.input_nodes g
      = (dedupFirst (op.input_tensors.map (fun t => t.op_name))).map
          (fun n => g.ops_info.lookup n) := by
    unfold OperationInfo.input_nodes
    rw [in_ops_eq_dedupFirst]
  refine ⟨h1, ?_⟩
  unfold OperationInfo.is_dangling
  rw [h1, List.any_eq_true]
  constructor
  · rintro ⟨x, hx, hnone⟩
    rcases List.mem_map.mp hx with ⟨nm, hnm, rfl⟩
    have hmem : nm ∈ op.input_tensors.map (fun t => t.op_name) :=
      mem_dedupFirst.mp hnm
    rcases List.mem_map.mp hmem with ⟨t, ht, rfl⟩
    refine ⟨t, ht, ?_⟩
    simpa using hnone
  · rintro ⟨t, ht, hnone⟩
    refine ⟨g.ops_info.lookup t.op_name, ?_, by simp [hnone]⟩
    apply List.mem_map_of_mem
    exact mem_dedupFirst.mpr (List.mem_map_of_mem (fun t => t.op_name) ht)

/-- **C3** (evaluating the code at the failing input): on the example graph
the first `get_ops_by_type("Conv2D")` call returns the `Relu` node `[C]`
instead of `[B]` — the index-building loop's variable shadows the
`op_type` parameter, so the final lookup uses the last node's type. -/
theorem C3_first_query_wrong_kind :
    (exGraph.get_ops_by_type "Conv2D").1 = [opC] ∧
    opC.op_type = "Relu" ∧
    opB.op_type = "Conv2D" ∧
    (exGraph.get_ops_by_type "Conv2D").1 ≠ [opB] :=
  ⟨by decide, rfl, rfl, by decide⟩

def tX0 : TensorInfo :=
  { name := "X:0", op_name := "X", dtype := "float32", shape := none }

def tE0 : TensorInfo :=
  { name := "E:0", op_name := "E", dtype := "float32", shape := none }

def opE : OperationInfo :=
  { name := "E", backend := "tensorflow", input_tensors := [tX0],
    output_tensors := [tE0], op_type := "Conv2D" }

def exGraphDangling : UTensorGraph :=
  { output_nodes := ["E"], backend := "tensorflow",
    ops_info := [("E", opE)], topo_order := ["E"], type_to_op_map := [] }

/-- **C9** counterexample: tensor `E:0`'s producing op `E` is present in
the owning graph, yet `n_th_output` fails — because `E` itself is dangling
(its input producer `X` is absent).  So failure is not equivalent to
absence of the tensor's producer. -/
theorem C9_counterexample :
    (exGraphDangling.ops_info.lookup tE0.op_name).isSome = true ∧
    tE0.n_th_output exGraphDangling = .error .danglingTensor :=
  ⟨by decide, by decide⟩

/-- **C9** amended: `n_th_output` fails with the dangling error iff the
tensor is dangling — its producer is absent, or the producer op is itself
dangling; when the tensor is not dangling and its name occurs among the
producer's output tensor names, it returns that (first) position. -/
theorem C9_n_th_output_spec (t : TensorInfo) (g : UTensorGraph) :
    (t.n_th_output g = .error .danglingTensor ↔ t.is_dangling g = true) ∧
    (∀ op : OperationInfo, t.op g = some op →
      t.is_dangling g = false →
      t.name ∈ op.output_tensors.map (fun ti => ti.name) →
      t.n_th_output g
        = .ok ((op.output_tensors.map (fun ti => ti.name)).indexOf t.name)) := by
  constructor
  · constructor
    · intro herr
      cases hd : t.is_dangling g
      · exfalso
        unfold TensorInfo.n_th_output at herr
        rw [hd] at herr
        cases hop : t.op g with
        | none =>
          unfold TensorInfo.is_dangling at hd
          rw [hop] at hd
          simp at hd
        | some o =>
          rw [hop] at herr
          by_cases hmem : t.name ∈ o.output_tensors.map (fun ti => ti.name)
          · simp [hmem] at herr
          · simp [hmem] at herr
      · rfl
    · intro hd
      unfold TensorInfo.n_th_output
      rw [hd]
      simp
  · intro op hop hd hmem
    unfold TensorInfo.n_th_output
    rw [hd, hop]
    simp [hmem]

/-- Witness for the amended C9: `B:0` in the example graph is not dangling
and is output number 0 of `B`. -/
theorem C9_witness :
    (tB0.op exGraph = some opB) ∧ (tB0.is_dangling exGraph = false) ∧
    (tB0.name ∈ opB.output_tensors.map (fun ti => ti.name)) ∧
    tB0.n_th_output exGraph = .ok 0 := by
  refine ⟨by decide, by decide, by decide, ?_⟩
  have h := (C9_n_th_output_spec tB0 exGraph).2 opB (by decide) (by decide)
    (by decide)
  exact h.trans (by decide)

def exGraphCached : UTensorGraph := (exGraph.get_ops_by_type "Conv2D").2

def exGraphStale : UTensorGraph := (exGraphCached.add_op opD).2

/-- **C4** (evaluating the code at the failing input): neither `add_op`
nor `drop_op` touches `_type_to_op_map`, so once the index has been built
a query after a mutation reflects the stale cache: after adding the
`Conv2D` node `D`, `get_ops_by_type("Conv2D")` still returns `[B]`, hiding
`D` which is in the node table. -/
theorem C4_cache_never_invalidated :
    (∀ (g : UTensorGraph) (op : OperationInfo) (name : String),
      (g.add_op op).2.type_to_op_map = g.type_to_op_map ∧
      (g.drop_op name).2.type_to_op_map = g.type_to_op_map) ∧
    ("D" ∈ dictKeys exGraphStale.ops_info ∧
     opD.op_type = "Conv2D" ∧
     (exGraphStale.get_ops_by_type "Conv2D").1 = [opB] ∧
     opD ∉ (exGraphStale.get_ops_by_type "Conv2D").1) := by
  constructor
  · intro g op name
    constructor
    · unfold UTensorGraph.add_op
      by_cases h : op.name ∈ dictKeys g.ops_info
      · rw [if_pos h]
      · rw [if_neg h]
    · unfold UTensorGraph.drop_op
      by_cases h1 : name ∈ dictKeys g.ops_info
      · rw [if_pos h1]
        by_cases h2 : name ∈ g.topo_order
        · rw [if_pos h2]
        · rw [if_neg h2]
      · rw [if_neg h1]
  · exact ⟨by decide, rfl, by decide, by decide⟩

def emptyGraphA : UTensorGraph :=
  { output_nodes := ["A"], backend := "tensorflow", ops_info := [],
    topo_order := [], type_to_op_map := [] }

/-- **C2** counterexample: the self-registration side effect of node
construction mutates the node table but does not recompute `topo_order`:
after constructing `"A"` into a fresh empty graph, the node table holds
`"A"` while `topo_order` is still `[]`, which is not a valid topological
order over the current node set. -/
theorem C2_counterexample :
    dictKeys (OperationInfo.construct emptyGraphA "A" "tensorflow" [] [tA0]
        "Placeholder").2.ops_info = ["A"] ∧
    (OperationInfo.construct emptyGraphA "A" "tensorflow" [] [tA0]
        "Placeholder").2.topo_order = [] ∧
    ¬ topoValid
        (OperationInfo.construct emptyGraphA "A" "tensorflow" [] [tA0]
          "Placeholder").2.ops_info
        (OperationInfo.construct emptyGraphA "A" "tensorflow" [] [tA0]
          "Placeholder").2.topo_order :=
  ⟨by decide, rfl, by decide⟩

/-- **C2** amended: after `add_op` (on distinct keys, when the resulting
dependency relation is acyclic) the recomputed `topo_order` is a valid
topological order containing every node of the table, and a successful
`drop_op` preserves validity over the remaining node set; but the
self-registration of node construction does not update `topo_order` (see
the counterexample), so validity holds after `add_op`/`drop_op`, not after
bare construction. -/
theorem C2_mutation_topo_order :
    (∀ (g : UTensorGraph) (op : OperationInfo),
      (dictKeys g.ops_info).Nodup →
      op.name ∉ dictKeys g.ops_info →
      acyclicB (g.ops_info ++ [(op.name, op)]) = true →
      (g.add_op op).1 = .ok () ∧
      topoValid (g.add_op op).2.ops_info (g.add_op op).2.topo_order) ∧
    (∀ (g : UTensorGraph) (name : String),
      topoValid g.ops_info g.topo_order →
      (g.drop_op name).1 = .ok () →
      topoValid (g.drop_op name).2.ops_info (g.drop_op name).2.topo_order) := by
  constructor
  · intro g op hnd hnot hac
    unfold UTensorGraph.add_op
    rw [if_neg hnot]
    refine ⟨rfl, ?_⟩
    have hnd' : (dictKeys (g.ops_info ++ [(op.name, op)])).Nodup := by
      have hkeys : dictKeys (g.ops_info ++ [(op.name, op)])
          = dictKeys g.ops_info ++ [op.name] := by
        simp [dictKeys]
      rw [hkeys]
      refine List.Nodup.append hnd (List.nodup_singleton _) ?_
      intro a ha hb
      simp at hb
      subst hb
      exact hnot ha
    exact topologic_order_graph_valid _ hnd' hac
  · intro g name hvalid hok
    unfold UTensorGraph.drop_op at hok ⊢
    by_cases h1 : name ∈ dictKeys g.ops_info
    · rw [if_pos h1] at hok ⊢
      by_cases h2 : name ∈ g.topo_order
      · rw [if_pos h2]
        exact topoValid_dictDel name hvalid
      · rw [if_neg h2] at hok
        simp at hok
    · rw [if_neg h1] at hok
      simp at hok

/-- Witness for the amended C2: adding `D` to the example graph succeeds
with a valid recomputed order, and dropping `B` preserves validity. -/
theorem C2_witness :
    ((dictKeys exGraph.ops_info).Nodup ∧
     "D" ∉ dictKeys exGraph.ops_info ∧
     acyclicB (exGraph.ops_info ++ [("D", opD)]) = true ∧
     (exGraph.add_op opD).1 = .ok () ∧
     topoValid (exGraph.add_op opD).2.ops_info
       (exGraph.add_op opD).2.topo_order) ∧
    (topoValid exGraph.ops_info exGraph.topo_order ∧
     (exGraph.drop_op "B").1 = .ok () ∧
     topoValid (exGraph.drop_op "B").2.ops_info
       (exGraph.drop_op "B").2.topo_order) := by
  have hadd := C2_mutation_topo_order.1 exGraph opD (by decide) (by decide)
    (by decide)
  have hdrop := C2_mutation_topo_order.2 exGraph "B" (by decide) (by decide)
  exact ⟨⟨by decide, by decide, by decide, hadd.1, hadd.2⟩,
         ⟨by decide, by decide, hdrop⟩⟩

theorem readDict_copyHeap (h : Heap) (v : OpsDict) (T : List String)
    (r : Nat) (hr : r < h.dictCells.length) :
    Heap.readDict
      { listCells := (h.listCells ++ [[]]).set h.listCells.length T,
        dictCells := (h.dictCells ++ [[]]).set h.dictCells.length v,
        mapCells := h.mapCells ++ [[]] } r
      = h.readDict r := by
  simp [Heap.readDict, List.getD_eq_getElem?_getD,
        List.getElem?_set_ne (Ne.symm (Nat.ne_of_lt hr)),
        List.getElem?_append_left hr]

theorem readList_copyHeap (h : Heap) (v : OpsDict) (T : List String)
    (r : Nat) (hr : r < h.listCells.length) :
    Heap.readList
      { listCells := (h.listCells ++ [[]]).set h.listCells.length T,
        dictCells := (h.dictCells ++ [[]]).set h.dictCells.length v,
        mapCells := h.mapCells ++ [[]] } r
      = h.readList r := by
  simp [Heap.readList, List.getD_eq_getElem?_getD,
        List.getElem?_set_ne (Ne.symm (Nat.ne_of_lt hr)),
        List.getElem?_append_left hr]

theorem readDict_copyHeap_self (h : Heap) (v : OpsDict) (T : List String) :
    Heap.readDict
      { listCells := (h.listCells ++ [[]]).set h.listCells.length T,
        dictCells := (h.dictCells ++ [[]]).set h.dictCells.length v,
        mapCells := h.mapCells ++ [[]] } h.dictCells.length
      = v := by
  have hb : h.dictCells.length < (h.dictCells ++ [[]]).length := by
    simp
  simp [Heap.readDict, List.getD_eq_getElem?_getD,
        List.getElem?_set_self hb]

theorem readList_copyHeap_self (h : Heap) (v : OpsDict) (T : List String) :
    Heap.readList
      { listCells := (h.listCells ++ [[]]).set h.listCells.length T,
        dictCells := (h.dictCells ++ [[]]).set h.dictCells.length v,
        mapCells := h.mapCells ++ [[]] } h.listCells.length
      = T := by
  have hb : h.listCells.length < (h.listCells ++ [[]]).length := by
    simp
  simp [Heap.readList, List.getD_eq_getElem?_getD,
        List.getElem?_set_self hb]

/-- **C7**: deep-copying a graph object writes only freshly allocated
cells, so the original's node table and `topo_order` read back unchanged;
any subsequent `drop_op` on the copy (successful or failing) mutates only
the copy's own cells, leaving the original's node table and `topo_order`
exactly as before the copy; and after a successful `drop_op` the copy's
`topo_order` is a valid topological order over the copy's remaining node
set (given distinct keys and acyclic dependencies of the copied table). -/
theorem C7_deepcopy_independence (h : Heap) (g : MemGraph) (name : String)
    (hOps : g.ops_info < h.dictCells.length)
    (hTopo : g.topo_order < h.listCells.length)
    (h' : Heap) (g' : MemGraph)
    (heq : MemGraph.deepcopy h g = .ok (h', g')) :
    (h'.readDict g.ops_info = h.readDict g.ops_info ∧
     h'.readList g.topo_order = h.readList g.topo_order) ∧
    ((MemGraph.drop_op h' g' name).2.readDict g.ops_info
        = h.readDict g.ops_info ∧
     (MemGraph.drop_op h' g' name).2.readList g.topo_order
        = h.readList g.topo_order) ∧
    ((dictKeys (h.readDict g.ops_info)).Nodup →
     acyclicB (h.readDict g.ops_info) = true →
     (MemGraph.drop_op h' g' name).1 = .ok () →
     topoValid ((MemGraph.drop_op h' g' name).2.readDict g'.ops_info)
       ((MemGraph.drop_op h' g' name).2.readList g'.topo_order)) := by
  have hne : (h.readList g.output_nodes).isEmpty = false := by
    cases hE : (h.readList g.output_nodes).isEmpty
    · rfl
    · exfalso
      unfold MemGraph.deepcopy MemGraph.construct at heq
      simp [hE] at heq
  rw [MemGraph.deepcopy_ok_form h g hne] at heq
  have hpair := Except.ok.inj heq
  have hH := congrArg Prod.fst hpair
  have hG := congrArg Prod.snd hpair
  subst hH
  subst hG
  set D := h.readDict g.ops_info with hD
  set T := topologic_order_graph D with hT
  set H : Heap :=
    { listCells := (h.listCells ++ [[]]).set h.listCells.length T,
      dictCells := (h.dictCells ++ [[]]).set h.dictCells.length D,
      mapCells := h.mapCells ++ [[]] } with hHdef
  set G : MemGraph :=
    { output_nodes := g.output_nodes, ops_info := h.dictCells.length,
      topo_order := h.listCells.length, type_to_op_map := h.mapCells.length,
      backend := g.backend } with hGdef
  have hframeD : H.readDict g.ops_info = D := by
    rw [hHdef, hT, hD]
    exact readDict_copyHeap h (h.readDict g.ops_info)
      (topologic_order_graph (h.readDict g.ops_info)) g.ops_info hOps
  have hframeL : H.readList g.topo_order = h.readList g.topo_order := by
    rw [hHdef, hT, hD]
    exact readList_copyHeap h (h.readDict g.ops_info)
      (topologic_order_graph (h.readDict g.ops_info)) g.topo_order hTopo
  have hselfD : H.readDict G.ops_info = D := by
    show H.readDict h.dictCells.length = D
    rw [hHdef, hT, hD]
    exact readDict_copyHeap_self h (h.readDict g.ops_info)
      (topologic_order_graph (h.readDict g.ops_info))
  have hselfL : H.readList G.topo_order = T := by
    show H.readList h.listCells.length = T
    rw [hHdef, hT, hD]
    exact readList_copyHeap_self h (h.readDict g.ops_info)
      (topologic_order_graph (h.readDict g.ops_info))
  refine ⟨⟨hframeD, hframeL⟩, ?_⟩
  unfold MemGraph.drop_op
  rw [hselfD, hselfL]
  by_cases hc1 : name ∈ dictKeys D
  · rw [if_pos hc1]
    by_cases hc2 : name ∈ T
    · rw [if_pos hc2]
      constructor
      · constructor
        · rw [Heap.readDict_writeList,
              Heap.readDict_writeDict_ne H G.ops_info g.ops_info
                (dictDel D name) (Ne.symm (Nat.ne_of_lt hOps))]
          exact hframeD
        · rw [Heap.readList_writeList_ne
                (H.writeDict G.ops_info (dictDel D name)) G.topo_order
                g.topo_order (T.erase name) (Ne.symm (Nat.ne_of_lt hTopo)),
              Heap.readList_writeDict]
          exact hframeL
      · intro hnd hac _
        have hbD : ((H.writeDict G.ops_info (dictDel D name)).writeList
            G.topo_order (T.erase name)).readDict G.ops_info
            = dictDel D name := by
          rw [Heap.readDict_writeList]
          apply Heap.readDict_writeDict_self
          rw [hGdef, hHdef]
          simp
        have hbL : ((H.writeDict G.ops_info (dictDel D name)).writeList
            G.topo_order (T.erase name)).readList G.topo_order
            = T.erase name := by
          apply Heap.readList_writeList_self
          rw [hGdef, hHdef]
          simp [Heap.writeDict]
        rw [hbD, hbL, hT]
        exact topoValid_dictDel name
          (topologic_order_graph_valid D hnd hac)
    · rw [if_neg hc2]
      constructor
      · constructor
        · rw [Heap.readDict_writeDict_ne H G.ops_info g.ops_info
                (dictDel D name) (Ne.symm (Nat.ne_of_lt hOps))]
          exact hframeD
        · rw [Heap.readList_writeDict]
          exact hframeL
      · intro _ _ hok
        simp at hok
  · rw [if_neg hc1]
    refine ⟨⟨hframeD, hframeL⟩, ?_⟩
    intro _ _ hok
    simp at hok

def exHeap : Heap :=
  { listCells := [["C"], ["A", "B", "C"]],
    dictCells := [[("A", opA), ("B", opB), ("C", opC)]],
    mapCells := [[]] }

def exMemGraph : MemGraph :=
  { output_nodes := 0, ops_info := 0, topo_order := 1,
    type_to_op_map := 0, backend := "tensorflow" }

def exCopyHeap : Heap :=
  { listCells := [["C"], ["A", "B", "C"], ["A", "B", "C"]],
    dictCells := [[("A", opA), ("B", opB), ("C", opC)],
                  [("A", opA), ("B", opB), ("C", opC)]],
    mapCells := [[], []] }

def exCopyGraph : MemGraph :=
  { output_nodes := 0, ops_info := 1, topo_order := 2,
    type_to_op_map := 1, backend := "tensorflow" }

/-- Witness for C7: deep-copying the example graph object and dropping
`"B"` on the copy leaves the original's cells untouched, and the copy's
order stays valid. -/
theorem C7_witness :
    (exMemGraph.ops_info < exHeap.dictCells.length ∧
     exMemGraph.topo_order < exHeap.listCells.length ∧
     MemGraph.deepcopy exHeap exMemGraph = .ok (exCopyHeap, exCopyGraph) ∧
     (dictKeys (exHeap.readDict exMemGraph.ops_info)).Nodup ∧
     acyclicB (exHeap.readDict exMemGraph.ops_info) = true ∧
     (MemGraph.drop_op exCopyHeap exCopyGraph "B").1 = .ok ()) ∧
    ((exCopyHeap.readDict exMemGraph.ops_info
        = exHeap.readDict exMemGraph.ops_info ∧
      exCopyHeap.readList exMemGraph.topo_order
        = exHeap.readList exMemGraph.topo_order) ∧
     ((MemGraph.drop_op exCopyHeap exCopyGraph "B").2.readDict
        exMemGraph.ops_info = exHeap.readDict exMemGraph.ops_info ∧
      (MemGraph.drop_op exCopyHeap exCopyGraph "B").2.readList
        exMemGraph.topo_order = exHeap.readList exMemGraph.topo_order) ∧
     topoValid
       ((MemGraph.drop_op exCopyHeap exCopyGraph "B").2.readDict
         exCopyGraph.ops_info)
       ((MemGraph.drop_op exCopyHeap exCopyGraph "B").2.readList
         exCopyGraph.topo_order)) := by
  have hmain := C7_deepcopy_independence exHeap exMemGraph "B"
    (by decide) (by decide) exCopyHeap exCopyGraph (by decide)
  exact ⟨⟨by decide, by decide, by decide, by decide, by decide, by decide⟩,
    hmain.1, hmain.2.1, hmain.2.2 (by decide) (by decide) (by decide)⟩
